import Mathlib

/-!
Verification of the ART method-tracing engine (`runtime/trace.h`).

The repository ships only the declaration header `trace.h`; the bodies of the
trace-recording functions live in a translation unit that is not part of the
source tree.  Definitions below therefore embed, for each declared function,
its behaviour as documented by the header comments and by the specification;
each such definition carries a doc comment saying what it was modelled from.
-/

namespace ArtTrace

/-! ## Little-endian byte serialisation

`trace.h` documents: "All values are stored in little-endian order."
Bytes are modelled as natural numbers `< 256`. -/

/-- Serialise `v` into `w` little-endian bytes (low byte first), truncating to
`w` bytes as a `w`-byte machine store does. -/
def toLE : Nat → Nat → List Nat
  | 0, _ => []
  | w + 1, v => (v % 256) :: toLE w (v / 256)

/-- Read a little-endian byte list back into a natural number. -/
def fromLE : List Nat → Nat
  | [] => 0
  | b :: bs => b + 256 * fromLE bs

theorem toLE_length (w v : Nat) : (toLE w v).length = w := by
  induction w generalizing v with
  | zero => rfl
  | succ w ih => simp [toLE, ih]

theorem fromLE_toLE (w v : Nat) : fromLE (toLE w v) = v % 256 ^ w := by
  induction w generalizing v with
  | zero => simp [toLE, fromLE, Nat.mod_one]
  | succ w ih =>
      have h : 256 ^ (w + 1) = 256 * 256 ^ w := by ring
      rw [toLE, fromLE, ih, h, Nat.mod_mul]

theorem fromLE_toLE_of_lt {w v : Nat} (h : v < 256 ^ w) : fromLE (toLE w v) = v := by
  rw [fromLE_toLE, Nat.mod_eq_of_lt h]

/-! ## Trace actions (`enum TraceAction`, `trace.h`) -/

/-- The three method actions of `enum TraceAction`. -/
inductive TraceAction where
  | kTraceMethodEnter
  | kTraceMethodExit
  | kTraceUnroll
  deriving DecidableEq, Repr

/-- Numeric value of a `TraceAction` as declared in `trace.h`
(`kTraceMethodEnter = 0x00`, `kTraceMethodExit = 0x01`, `kTraceUnroll = 0x02`). -/
def TraceAction.encoding : TraceAction → Nat
  | .kTraceMethodEnter => 0x00
  | .kTraceMethodExit => 0x01
  | .kTraceUnroll => 0x02

/-- `kTraceMethodActionMask = 0x03` — two bits (`trace.h`). -/
def kTraceMethodActionMask : Nat := 0x03

theorem TraceAction.encoding_lt (a : TraceAction) : a.encoding < 4 := by
  cases a <;> simp [TraceAction.encoding]

/-! ## Clock sources and record geometry

`trace.h` documents the record formats:
  v1 = u1 thread id, u4 method word, u4 thread-clock delta (9 bytes);
  v2 = u2 thread id, u4 method word, u4 thread-clock delta (10 bytes);
  v3 = v2 plus u4 wall-clock delta when clock == "dual" (14 bytes). -/

/-- Clock sources of a tracing session (`TraceClockSource`, selected through the
flags `kTraceClockSourceWallClock` / `kTraceClockSourceThreadCpu`). -/
inductive TraceClockSource where
  | kThreadCpu
  | kWall
  | kDual
  deriving DecidableEq, Repr

/-- Width of the thread-id field in bytes: 1 in format v1, 2 from v2 on
(record format comment in `trace.h`). -/
def threadIdWidth (version : Nat) : Nat :=
  if version = 1 then 1 else 2

/-- Whether a record carries the trailing wall-clock field: format v3 with a
dual clock only (record format comment in `trace.h`). -/
def hasWallClockField (clock : TraceClockSource) (version : Nat) : Bool :=
  version = 3 && clock = TraceClockSource.kDual

/-- Fixed byte width of one event record for a clock-source/version
configuration (record format comment in `trace.h`). -/
def GetRecordSize (clock : TraceClockSource) (version : Nat) : Nat :=
  threadIdWidth version + 4 + 4 + (if hasWallClockField clock version then 4 else 0)

/-! ## Event record encoding and decoding -/

/-- A decoded trace record: interned thread id, interned method id, action
bits, thread-clock delta, and the wall-clock delta when present. -/
structure DecodedRecord where
  thread_id : Nat
  method_index : Nat
  action : Nat
  thread_clock_diff : Nat
  wall_clock_diff : Option Nat
  deriving DecidableEq, Repr

/-- Modelled from the spec: the body of `Trace::EncodeEventEntry` is not in the
source tree; the record layout follows the format comment in `trace.h` (fields
little-endian, action packed in the two low bits of the method word, §4.3 of
the spec). -/
def EncodeEventEntry (clock : TraceClockSource) (version : Nat)
    (thread_id method_index : Nat) (action : TraceAction)
    (thread_clock_diff wall_clock_diff : Nat) : List Nat :=
  toLE (threadIdWidth version) thread_id
    ++ toLE 4 (method_index * 4 + action.encoding)
    ++ toLE 4 thread_clock_diff
    ++ (if hasWallClockField clock version then toLE 4 wall_clock_diff else [])

/-- Modelled from the spec: the trace readers are not in the source tree; this
inverts the record layout of the format comment in `trace.h`. -/
def DecodeEventEntry (clock : TraceClockSource) (version : Nat)
    (bytes : List Nat) : DecodedRecord :=
  { thread_id := fromLE (bytes.take (threadIdWidth version))
    method_index := fromLE ((bytes.drop (threadIdWidth version)).take 4) / 4
    action := fromLE ((bytes.drop (threadIdWidth version)).take 4) % kTraceMethodActionMask.succ
    thread_clock_diff := fromLE ((bytes.drop (threadIdWidth version + 4)).take 4)
    wall_clock_diff :=
      if hasWallClockField clock version then
        some (fromLE ((bytes.drop (threadIdWidth version + 8)).take 4))
      else none }

theorem EncodeEventEntry_length (clock : TraceClockSource) (version : Nat)
    (tid mid : Nat) (a : TraceAction) (td wd : Nat) :
    (EncodeEventEntry clock version tid mid a td wd).length = GetRecordSize clock version := by
  simp only [EncodeEventEntry, GetRecordSize, List.length_append, toLE_length]
  cases h : hasWallClockField clock version <;> simp [toLE_length]

theorem take_append_len {α : Type} (pre post : List α) (n : Nat) (h : pre.length = n) :
    (pre ++ post).take n = pre := by
  induction pre generalizing n with
  | nil => simp at h; simp [h]
  | cons x xs ih =>
      cases n with
      | zero => simp at h
      | succ m =>
          simp only [List.length_cons, Nat.succ.injEq] at h
          simp [List.take, ih xs.length rfl, h, ih m h]

theorem drop_append_len {α : Type} (pre post : List α) (n : Nat) (h : pre.length = n) :
    (pre ++ post).drop n = post := by
  induction pre generalizing n with
  | nil =>
      simp only [List.length_nil] at h
      subst h
      simp
  | cons x xs ih =>
      cases n with
      | zero => simp at h
      | succ m =>
          simp only [List.length_cons, Nat.succ.injEq] at h
          simp [List.drop, ih m h]

theorem DecodeEventEntry_EncodeEventEntry (clock : TraceClockSource) (version : Nat)
    (tid mid : Nat) (a : TraceAction) (td wd : Nat)
    (htid : tid < 256 ^ threadIdWidth version) (hmid : mid < 2 ^ 30)
    (htd : td < 2 ^ 32) (hwd : wd < 2 ^ 32) :
    DecodeEventEntry clock version (EncodeEventEntry clock version tid mid a td wd) =
      { thread_id := tid
        method_index := mid
        action := a.encoding
        thread_clock_diff := td
        wall_clock_diff := if hasWallClockField clock version then some wd else none } := by
  have ha : a.encoding < 4 := a.encoding_lt
  have hword : mid * 4 + a.encoding < 256 ^ 4 := by
    have h4 : (256 : Nat) ^ 4 = 2 ^ 32 := by norm_num
    have : mid * 4 + 4 ≤ 2 ^ 30 * 4 := by omega
    omega
  have htd4 : td < 256 ^ 4 := by
    have h4 : (256 : Nat) ^ 4 = 2 ^ 32 := by norm_num
    omega
  have hwd4 : wd < 256 ^ 4 := by
    have h4 : (256 : Nat) ^ 4 = 2 ^ 32 := by norm_num
    omega
  have hAlen : (toLE (threadIdWidth version) tid).length = threadIdWidth version :=
    toLE_length _ _
  have hBlen : (toLE 4 (mid * 4 + a.encoding)).length = 4 := toLE_length _ _
  have hClen : (toLE 4 td).length = 4 := toLE_length _ _
  have henc : EncodeEventEntry clock version tid mid a td wd =
      toLE (threadIdWidth version) tid ++ (toLE 4 (mid * 4 + a.encoding) ++
        (toLE 4 td ++ (if hasWallClockField clock version then toLE 4 wd else []))) := by
    simp [EncodeEventEntry]
  generalize hDdef : (if hasWallClockField clock version then toLE 4 wd else []) = D at henc
  have htake0 : (toLE (threadIdWidth version) tid ++ (toLE 4 (mid * 4 + a.encoding) ++
      (toLE 4 td ++ D))).take (threadIdWidth version) = toLE (threadIdWidth version) tid :=
    take_append_len _ _ _ hAlen
  have hdrop0 : (toLE (threadIdWidth version) tid ++ (toLE 4 (mid * 4 + a.encoding) ++
      (toLE 4 td ++ D))).drop (threadIdWidth version) =
      toLE 4 (mid * 4 + a.encoding) ++ (toLE 4 td ++ D) :=
    drop_append_len _ _ _ hAlen
  have hdrop1 : (toLE (threadIdWidth version) tid ++ (toLE 4 (mid * 4 + a.encoding) ++
      (toLE 4 td ++ D))).drop (threadIdWidth version + 4) = toLE 4 td ++ D := by
    have hlen : (toLE (threadIdWidth version) tid ++ toLE 4 (mid * 4 + a.encoding)).length =
        threadIdWidth version + 4 := by simp [hAlen, hBlen]
    calc (toLE (threadIdWidth version) tid ++ (toLE 4 (mid * 4 + a.encoding) ++
          (toLE 4 td ++ D))).drop (threadIdWidth version + 4)
        = ((toLE (threadIdWidth version) tid ++ toLE 4 (mid * 4 + a.encoding)) ++
            (toLE 4 td ++ D)).drop (threadIdWidth version + 4) := by simp
      _ = toLE 4 td ++ D := drop_append_len _ _ _ hlen
  have hdrop2 : (toLE (threadIdWidth version) tid ++ (toLE 4 (mid * 4 + a.encoding) ++
      (toLE 4 td ++ D))).drop (threadIdWidth version + 8) = D := by
    have hlen : ((toLE (threadIdWidth version) tid ++ toLE 4 (mid * 4 + a.encoding)) ++
        toLE 4 td).length = threadIdWidth version + 8 := by simp [hAlen, hBlen, hClen]
    calc (toLE (threadIdWidth version) tid ++ (toLE 4 (mid * 4 + a.encoding) ++
          (toLE 4 td ++ D))).drop (threadIdWidth version + 8)
        = (((toLE (threadIdWidth version) tid ++ toLE 4 (mid * 4 + a.encoding)) ++
            toLE 4 td) ++ D).drop (threadIdWidth version + 8) := by simp
      _ = D := drop_append_len _ _ _ hlen
  unfold DecodeEventEntry
  rw [henc, htake0, hdrop0, hdrop1, hdrop2]
  have hwordval : fromLE ((toLE 4 (mid * 4 + a.encoding) ++ (toLE 4 td ++ D)).take 4) =
      mid * 4 + a.encoding := by
    rw [take_append_len _ _ _ hBlen, fromLE_toLE_of_lt hword]
  have htdval : fromLE ((toLE 4 td ++ D).take 4) = td := by
    rw [take_append_len _ _ _ hClen, fromLE_toLE_of_lt htd4]
  rw [hwordval, htdval]
  have hmidval : (mid * 4 + a.encoding) / 4 = mid := by omega
  have hactval : (mid * 4 + a.encoding) % kTraceMethodActionMask.succ = a.encoding := by
    have h4 : kTraceMethodActionMask.succ = 4 := rfl
    rw [h4]
    omega
  rw [hmidval, hactval, fromLE_toLE_of_lt htid]
  cases hwc : hasWallClockField clock version with
  | false => simp [hwc]
  | true =>
      have hDval : D = toLE 4 wd := by
        rw [← hDdef, hwc]
        simp
      have htkD : (toLE 4 wd).take 4 = toLE 4 wd := by
        have h := take_append_len (toLE 4 wd) ([] : List Nat) 4 (toLE_length _ _)
        simpa using h
      simp [hwc, hDval, htkD, fromLE_toLE_of_lt hwd4]

/-- C1: for every event and every clock-source/version configuration, encoding
produces a little-endian record of exactly the fixed width determined by that
configuration (v1 = 9 bytes, v2 = 10 bytes, v3 dual-clock = 14 bytes), with
the action packed into the two low-order bits of the method-id word, and
decoding that record with the same configuration recovers the original
thread-id, method-id, action and deltas exactly. -/
theorem encode_fixed_width_decode_roundtrip
    (clock : TraceClockSource) (version : Nat) (tid mid : Nat) (a : TraceAction) (td wd : Nat)
    (htid : tid < 256 ^ threadIdWidth version) (hmid : mid < 2 ^ 30)
    (htd : td < 2 ^ 32) (hwd : wd < 2 ^ 32) :
    (EncodeEventEntry clock version tid mid a td wd).length = GetRecordSize clock version ∧
    (version = 1 → (EncodeEventEntry clock version tid mid a td wd).length = 9) ∧
    (version = 2 → (EncodeEventEntry clock version tid mid a td wd).length = 10) ∧
    (version = 3 → clock = TraceClockSource.kDual →
      (EncodeEventEntry clock version tid mid a td wd).length = 14) ∧
    fromLE (((EncodeEventEntry clock version tid mid a td wd).drop
      (threadIdWidth version)).take 4) % 4 = a.encoding ∧
    DecodeEventEntry clock version (EncodeEventEntry clock version tid mid a td wd) =
      { thread_id := tid
        method_index := mid
        action := a.encoding
        thread_clock_diff := td
        wall_clock_diff := if hasWallClockField clock version then some wd else none } := by
  have hlen := EncodeEventEntry_length clock version tid mid a td wd
  have hdec := DecodeEventEntry_EncodeEventEntry clock version tid mid a td wd htid hmid htd hwd
  refine ⟨hlen, ?_, ?_, ?_, ?_, hdec⟩
  · intro h1
    subst h1
    rw [hlen]
    simp [GetRecordSize, threadIdWidth, hasWallClockField]
  · intro h2
    subst h2
    rw [hlen]
    simp [GetRecordSize, threadIdWidth, hasWallClockField]
  · intro h3 hck
    subst h3
    subst hck
    rw [hlen]
    simp [GetRecordSize, threadIdWidth, hasWallClockField]
  · -- the decoded action field is exactly the low two bits of the method word
    have h := congrArg DecodedRecord.action hdec
    simp only [DecodeEventEntry] at h
    have h4 : kTraceMethodActionMask.succ = 4 := rfl
    rw [h4] at h
    exact h

/-- Witness for C1 at a concrete dual-clock v3 event. -/
theorem encode_fixed_width_decode_roundtrip_witness :
    (EncodeEventEntry TraceClockSource.kDual 3 5 7 TraceAction.kTraceMethodExit 100 200).length
        = 14 ∧
    DecodeEventEntry TraceClockSource.kDual 3
        (EncodeEventEntry TraceClockSource.kDual 3 5 7 TraceAction.kTraceMethodExit 100 200) =
      { thread_id := 5
        method_index := 7
        action := 1
        thread_clock_diff := 100
        wall_clock_diff := some 200 } := by
  have h := encode_fixed_width_decode_roundtrip TraceClockSource.kDual 3 5 7
    TraceAction.kTraceMethodExit 100 200 (by decide) (by decide) (by decide) (by decide)
  refine ⟨h.2.2.2.1 rfl rfl, ?_⟩
  have h6 := h.2.2.2.2.2
  simpa [TraceAction.encoding, hasWallClockField] using h6

/-! ## Buffered (non-streaming) mode

`trace.h` documents `cur_offset_` as an atomic offset into `buf_`: "reserved
regions are atomically allocated (using `cur_offset_`) for log entries to be
written", together with the `overflow_` flag ("Did we overflow the buffer
recording traces?").  The body of `Trace::RecordMethodEvent` is not in the
source tree; its reservation discipline is modelled from the spec (§4.4): the
cursor is advanced by exactly the record width before the writer fills its
reserved slice; a reservation that would exceed capacity sets the overflow
flag and drops the record, and tracing continues. -/

/-- State of the shared buffered-mode buffer: the reservation cursor
(`cur_offset_`), the overflow flag (`overflow_`), and the bytes written so far
(the prefix `buf_[0 .. cur_offset_)`). -/
structure BufferedState where
  cur_offset_ : Nat
  overflow_ : Bool
  written : List Nat
  deriving DecidableEq, Repr

/-- Initial buffered-mode state at `Start`. -/
def initBuffered : BufferedState := { cur_offset_ := 0, overflow_ := false, written := [] }

/-- Modelled from the spec: the body of `Trace::RecordMethodEvent` is not in
the source tree.  Reserve `record.length` bytes at the cursor; if the
reservation would exceed `buffer_size_`, set `overflow_` and drop the record
(non-fatally), otherwise advance the cursor and store the encoded record in
the reserved slice. -/
def RecordMethodEvent (buffer_size_ : Nat) (record : List Nat)
    (st : BufferedState) : BufferedState :=
  if st.cur_offset_ + record.length > buffer_size_ then
    { st with overflow_ := true }
  else
    { cur_offset_ := st.cur_offset_ + record.length
      overflow_ := st.overflow_
      written := st.written ++ record }

/-- Record a whole sequence of encoded events into the shared buffer. -/
def recordAll (buffer_size_ : Nat) (records : List (List Nat))
    (st : BufferedState) : BufferedState :=
  records.foldl (fun s r => RecordMethodEvent buffer_size_ r s) st

theorem recordAll_nil (buffer_size_ : Nat) (st : BufferedState) :
    recordAll buffer_size_ [] st = st := rfl

theorem recordAll_cons (buffer_size_ : Nat) (r : List Nat) (rs : List (List Nat))
    (st : BufferedState) :
    recordAll buffer_size_ (r :: rs) st =
      recordAll buffer_size_ rs (RecordMethodEvent buffer_size_ r st) := rfl

/-- Characterisation of a whole buffered-mode run over records of one fixed
width `w`, started at a cursor that is `j` records in: exactly the records
that fit below capacity (the first `⌊capacity/w⌋ - j` of them) are persisted,
in order; the rest are dropped and raise `overflow_`. -/
theorem recordAll_fixed_width (buffer_size_ w : Nat) (hw : 0 < w)
    (records : List (List Nat)) (hlen : ∀ r ∈ records, r.length = w)
    (j : Nat) (ov : Bool) (pref : List Nat) :
    recordAll buffer_size_ records
        { cur_offset_ := j * w, overflow_ := ov, written := pref } =
      { cur_offset_ := j * w + ((records.take (buffer_size_ / w - j)).flatten).length
        overflow_ := ov || decide (buffer_size_ / w - j < records.length)
        written := pref ++ (records.take (buffer_size_ / w - j)).flatten } := by
  induction records generalizing j ov pref with
  | nil => simp [recordAll_nil]
  | cons r rs ih =>
      have hr : r.length = w := hlen r (by simp)
      have hlen2 : ∀ x ∈ rs, x.length = w := fun x hx => hlen x (by simp [hx])
      rw [recordAll_cons]
      by_cases hj : j < buffer_size_ / w
      · -- the record fits: the reservation stays within capacity
        have hfits : (j + 1) * w ≤ buffer_size_ := by
          have h1 : j + 1 ≤ buffer_size_ / w := hj
          exact (Nat.le_div_iff_mul_le hw).mp h1
        have hexp : (j + 1) * w = j * w + w := by ring
        have hcond : ¬ (j * w + r.length > buffer_size_) := by
          rw [hr]
          omega
        rw [RecordMethodEvent, if_neg hcond]
        have hstep : j * w + r.length = (j + 1) * w := by rw [hr]; ring
        simp only [hstep]
        rw [ih hlen2 (j + 1) ov (pref ++ r)]
        obtain ⟨k, hk⟩ : ∃ k, buffer_size_ / w - j = k + 1 :=
          ⟨buffer_size_ / w - j - 1, by omega⟩
        have hk2 : buffer_size_ / w - (j + 1) = k := by omega
        rw [hk, hk2, List.take_succ_cons, List.flatten_cons]
        simp only [BufferedState.mk.injEq]
        refine ⟨?_, ?_, ?_⟩
        · simp only [List.length_append, hr]
          omega
        · congr 1
          refine decide_eq_decide.mpr ?_
          simp only [List.length_cons]
          omega
        · simp [List.append_assoc]
      · -- the reservation would exceed capacity: drop and set overflow
        have hexp : (j + 1) * w = j * w + w := by ring
        have hcond : j * w + r.length > buffer_size_ := by
          rw [hr]
          by_contra hc
          have h1 : (j + 1) * w ≤ buffer_size_ := by omega
          have h2 : j + 1 ≤ buffer_size_ / w := (Nat.le_div_iff_mul_le hw).mpr h1
          omega
        rw [RecordMethodEvent, if_pos hcond]
        have havail : buffer_size_ / w - j = 0 := by omega
        rw [show ({ cur_offset_ := j * w, overflow_ := ov, written := pref } :
              BufferedState).cur_offset_ = j * w from rfl] at *
        show recordAll buffer_size_ rs
            { cur_offset_ := j * w, overflow_ := true, written := pref } = _
        rw [ih hlen2 j true pref, havail]
        simp

theorem flatten_take_length (records : List (List Nat)) (w k : Nat)
    (hlen : ∀ r ∈ records, r.length = w) (hk : k ≤ records.length) :
    ((records.take k).flatten).length = k * w := by
  induction records generalizing k with
  | nil =>
      simp at hk
      simp [hk]
  | cons r rs ih =>
      cases k with
      | zero => simp
      | succ m =>
          have hr : r.length = w := hlen r (by simp)
          have hlen2 : ∀ x ∈ rs, x.length = w := fun x hx => hlen x (by simp [hx])
          have hm : m ≤ rs.length := by simp at hk; omega
          rw [List.take_succ_cons, List.flatten_cons, List.length_append, hr, ih m hlen2 hm]
          ring

/-- C2: in buffered (non-streaming) mode, for every sequence of N recorded
events of fixed record width w with N×w exceeding the buffer capacity,
exactly N − ⌊capacity/w⌋ events are dropped (the first ⌊capacity/w⌋ are
persisted, in order), the overflow flag is set, tracing continues non-fatally
through the whole sequence, and the written region is a concatenation of
whole records — never a partial or corrupt one. -/
theorem buffered_overflow_exact_drop (buffer_size_ w : Nat) (records : List (List Nat))
    (hw : 0 < w) (hlen : ∀ r ∈ records, r.length = w)
    (hov : records.length * w > buffer_size_) :
    (recordAll buffer_size_ records initBuffered).overflow_ = true ∧
    (recordAll buffer_size_ records initBuffered).written =
      (records.take (buffer_size_ / w)).flatten ∧
    (records.take (buffer_size_ / w)).length = buffer_size_ / w ∧
    (records.drop (buffer_size_ / w)).length = records.length - buffer_size_ / w ∧
    (recordAll buffer_size_ records initBuffered).written.length =
      (buffer_size_ / w) * w := by
  have hk : buffer_size_ / w < records.length := by
    by_contra hc
    have h1 : records.length ≤ buffer_size_ / w := by omega
    have h2 : records.length * w ≤ buffer_size_ := (Nat.le_div_iff_mul_le hw).mp h1
    omega
  have h := recordAll_fixed_width buffer_size_ w hw records hlen 0 false []
  have hinit : initBuffered =
      ({ cur_offset_ := 0 * w, overflow_ := false, written := [] } : BufferedState) := by
    simp [initBuffered]
  rw [hinit, h]
  refine ⟨?_, ?_, ?_, ?_, ?_⟩
  · simp [hk]
  · simp
  · rw [List.length_take]
    omega
  · rw [List.length_drop]
  · have hf := flatten_take_length records w (buffer_size_ / w) hlen (Nat.le_of_lt hk)
    simpa using hf

/-- Witness for C2: capacity 4, record width 2, three records — one is
dropped, the first two are persisted whole, and overflow is set. -/
theorem buffered_overflow_exact_drop_witness :
    (recordAll 4 [[1, 2], [3, 4], [5, 6]] initBuffered).overflow_ = true ∧
    (recordAll 4 [[1, 2], [3, 4], [5, 6]] initBuffered).written = [1, 2, 3, 4] := by
  have h := buffered_overflow_exact_drop 4 2 [[1, 2], [3, 4], [5, 6]]
    (by decide) (by decide) (by decide)
  refine ⟨h.1, ?_⟩
  rw [h.2.1]
  decide

/-! ## Streaming mode

`trace.h` documents `RecordStreamingMethodEvent`: "This records the method
event in the per-thread buffer if there is sufficient space for the entire
record. If the buffer is full then it just flushes the buffer and then
records the entry", and `FlushStreamingBuffer`: "This encodes all the events
in the per-thread trace buffer and writes it to the trace file. ... each
method is encoded with a unique id which is assigned when the method is seen
for the first time in the recorded events."  The bodies are not in the source
tree; flush-time name emission follows spec §4.4 (streaming mode). -/

/-- One streaming record held in a per-thread buffer: the keys of the thread
and the method it refers to (whose names must reach the sink no later than the
record does) and its encoded bytes. -/
structure StreamRecord where
  threadKey : Nat
  methodKey : Nat
  bytes : List Nat
  deriving DecidableEq, Repr

/-- State of one thread's streaming session: method and thread keys whose
names have already been written to the sink, the sink writes performed so far
(each one a triple of newly-emitted method names, newly-emitted thread names
and the flushed records), and the per-thread buffer contents. -/
structure StreamingState where
  emittedMethods : List Nat
  emittedThreads : List Nat
  flushes : List (List Nat × List Nat × List StreamRecord)
  buf : List StreamRecord
  deriving DecidableEq, Repr

/-- Initial streaming state. -/
def initStreaming : StreamingState :=
  { emittedMethods := [], emittedThreads := [], flushes := [], buf := [] }

/-- Number of bytes currently occupying a per-thread buffer. -/
def bufBytes (buf : List StreamRecord) : Nat :=
  (buf.map (fun r => r.bytes.length)).sum

/-- The method names a flush of the current buffer must emit: the methods
appearing in the buffer whose names have not been emitted yet. -/
def newFlushMethods (st : StreamingState) : List Nat :=
  ((st.buf.map (fun r => r.methodKey)).dedup).filter
    (fun k => ¬ k ∈ st.emittedMethods)

/-- The thread names a flush of the current buffer must emit: the threads
appearing in the buffer whose names have not been emitted yet. -/
def newFlushThreads (st : StreamingState) : List Nat :=
  ((st.buf.map (fun r => r.threadKey)).dedup).filter
    (fun k => ¬ k ∈ st.emittedThreads)

/-- Modelled from the spec: the body of `Trace::FlushStreamingBuffer` is not
in the source tree.  Write the buffer to the sink as one write, preceded by
the names of the methods and threads appearing in it that have not been
emitted yet (spec §4.4: "encoding, at flush time, any newly-seen
method/thread names that must precede first use"), and empty the buffer. -/
def FlushStreamingBuffer (st : StreamingState) : StreamingState :=
  { emittedMethods := st.emittedMethods ++ newFlushMethods st
    emittedThreads := st.emittedThreads ++ newFlushThreads st
    flushes := st.flushes ++ [(newFlushMethods st, newFlushThreads st, st.buf)]
    buf := [] }

/-- Modelled from the spec: the body of `Trace::RecordStreamingMethodEvent` is
not in the source tree; behaviour follows its doc comment in `trace.h`:
append the record to the per-thread buffer if it fits, otherwise flush the
buffer first and then record the entry into the emptied buffer. -/
def RecordStreamingMethodEvent (buffer_size_ : Nat) (r : StreamRecord)
    (st : StreamingState) : StreamingState :=
  if bufBytes st.buf + r.bytes.length > buffer_size_ then
    let st2 := FlushStreamingBuffer st
    { st2 with buf := [r] }
  else
    { st with buf := st.buf ++ [r] }

/-- Record a whole sequence of streaming events. -/
def recordAllStreaming (buffer_size_ : Nat) (rs : List StreamRecord)
    (st : StreamingState) : StreamingState :=
  rs.foldl (fun s r => RecordStreamingMethodEvent buffer_size_ r s) st

/-- "Names precede use": walking the sink writes in order while accumulating
the emitted method and thread names, every record of every write only refers
to a method and a thread whose names were emitted no later than that write. -/
def namesPrecedeUse (emittedM emittedT : List Nat) :
    List (List Nat × List Nat × List StreamRecord) → Prop
  | [] => True
  | (ms, ts, recs) :: rest =>
      (∀ r ∈ recs, r.methodKey ∈ emittedM ++ ms ∧ r.threadKey ∈ emittedT ++ ts) ∧
        namesPrecedeUse (emittedM ++ ms) (emittedT ++ ts) rest

theorem namesPrecedeUse_append (emittedM emittedT : List Nat)
    (fls : List (List Nat × List Nat × List StreamRecord)) (ms ts : List Nat)
    (recs : List StreamRecord)
    (h1 : namesPrecedeUse emittedM emittedT fls)
    (h2 : ∀ r ∈ recs,
      r.methodKey ∈ (emittedM ++ (fls.map Prod.fst).flatten) ++ ms ∧
      r.threadKey ∈ (emittedT ++ (fls.map (fun p => p.2.1)).flatten) ++ ts) :
    namesPrecedeUse emittedM emittedT (fls ++ [(ms, ts, recs)]) := by
  induction fls generalizing emittedM emittedT with
  | nil =>
      refine ⟨?_, trivial⟩
      intro r hr
      have h := h2 r hr
      simpa using h
  | cons p rest ih =>
      obtain ⟨ha, hb⟩ := h1
      refine ⟨ha, ih (emittedM ++ p.1) (emittedT ++ p.2.1) hb ?_⟩
      intro r hr
      have h := h2 r hr
      simp only [List.map_cons, List.flatten_cons, List.mem_append] at h ⊢
      tauto

theorem recordAllStreaming_spec (buffer_size_ : Nat) (rs : List StreamRecord)
    (st : StreamingState)
    (hinv1 : namesPrecedeUse [] [] st.flushes)
    (hinv2 : st.emittedMethods = (st.flushes.map Prod.fst).flatten)
    (hinv3 : st.emittedThreads = (st.flushes.map (fun p => p.2.1)).flatten) :
    (((recordAllStreaming buffer_size_ rs st).flushes.map (fun p => p.2.2)).flatten
        ++ (recordAllStreaming buffer_size_ rs st).buf
      = (st.flushes.map (fun p => p.2.2)).flatten ++ st.buf ++ rs) ∧
    namesPrecedeUse [] [] (recordAllStreaming buffer_size_ rs st).flushes ∧
    (recordAllStreaming buffer_size_ rs st).emittedMethods
      = ((recordAllStreaming buffer_size_ rs st).flushes.map Prod.fst).flatten ∧
    (recordAllStreaming buffer_size_ rs st).emittedThreads
      = ((recordAllStreaming buffer_size_ rs st).flushes.map (fun p => p.2.1)).flatten := by
  induction rs generalizing st with
  | nil =>
      refine ⟨by simp [recordAllStreaming], hinv1, hinv2, hinv3⟩
  | cons r rs ih =>
      have hstep : recordAllStreaming buffer_size_ (r :: rs) st =
          recordAllStreaming buffer_size_ rs (RecordStreamingMethodEvent buffer_size_ r st) :=
        rfl
      rw [hstep]
      by_cases hfit : bufBytes st.buf + r.bytes.length > buffer_size_
      · -- overflow: the buffer is flushed first (emitting the still-missing
        -- method and thread names), then the record is written into the
        -- emptied buffer
        have hev : RecordStreamingMethodEvent buffer_size_ r st =
            { emittedMethods := st.emittedMethods ++ newFlushMethods st
              emittedThreads := st.emittedThreads ++ newFlushThreads st
              flushes := st.flushes ++ [(newFlushMethods st, newFlushThreads st, st.buf)]
              buf := [r] } := by
          rw [RecordStreamingMethodEvent, if_pos hfit]
          rfl
        rw [hev]
        have hinv1n : namesPrecedeUse [] []
            (st.flushes ++ [(newFlushMethods st, newFlushThreads st, st.buf)]) := by
          refine namesPrecedeUse_append [] [] st.flushes _ _ st.buf hinv1 ?_
          intro x hx
          constructor
          · simp only [List.nil_append, List.mem_append]
            by_cases hm : x.methodKey ∈ st.emittedMethods
            · left
              rw [← hinv2]
              exact hm
            · right
              simp only [newFlushMethods, List.mem_filter, List.mem_dedup]
              refine ⟨List.mem_map_of_mem _ hx, by simpa using hm⟩
          · simp only [List.nil_append, List.mem_append]
            by_cases hm : x.threadKey ∈ st.emittedThreads
            · left
              rw [← hinv3]
              exact hm
            · right
              simp only [newFlushThreads, List.mem_filter, List.mem_dedup]
              refine ⟨List.mem_map_of_mem _ hx, by simpa using hm⟩
        have hinv2n : st.emittedMethods ++ newFlushMethods st
            = ((st.flushes ++ [(newFlushMethods st, newFlushThreads st,
                st.buf)]).map Prod.fst).flatten := by
          simp [hinv2]
        have hinv3n : st.emittedThreads ++ newFlushThreads st
            = ((st.flushes ++ [(newFlushMethods st, newFlushThreads st,
                st.buf)]).map (fun p => p.2.1)).flatten := by
          simp [hinv3]
        obtain ⟨hc, hn1, hn2, hn3⟩ := ih
          { emittedMethods := st.emittedMethods ++ newFlushMethods st
            emittedThreads := st.emittedThreads ++ newFlushThreads st
            flushes := st.flushes ++ [(newFlushMethods st, newFlushThreads st, st.buf)]
            buf := [r] } hinv1n hinv2n hinv3n
        refine ⟨?_, hn1, hn2, hn3⟩
        rw [hc]
        simp
      · -- the record fits: append it to the per-thread buffer
        have hev : RecordStreamingMethodEvent buffer_size_ r st =
            { st with buf := st.buf ++ [r] } := by
          rw [RecordStreamingMethodEvent, if_neg hfit]
        rw [hev]
        obtain ⟨hc, hn1, hn2, hn3⟩ := ih { st with buf := st.buf ++ [r] } hinv1 hinv2 hinv3
        refine ⟨?_, hn1, hn2, hn3⟩
        rw [hc]
        simp

/-- C3: in streaming mode, `RecordStreamingMethodEvent` appends the encoded
record to the calling thread's private buffer when space remains; when the
record would overflow that buffer, the buffer is first flushed to the sink —
emitting at flush time the not-yet-emitted method and thread names needed to
decode it — and the record is then written into the emptied buffer; hence
over every sequence of events (in particular across any number of forced
flushes) the sink writes concatenated with the remaining buffer are exactly
the recorded events, with no record lost across flush boundaries. -/
theorem streaming_flush_no_loss (buffer_size_ : Nat) (rs : List StreamRecord) :
    (((recordAllStreaming buffer_size_ rs initStreaming).flushes.map
          (fun p => p.2.2)).flatten
        ++ (recordAllStreaming buffer_size_ rs initStreaming).buf = rs) ∧
    namesPrecedeUse [] [] (recordAllStreaming buffer_size_ rs initStreaming).flushes ∧
    (∀ (r : StreamRecord) (st : StreamingState),
      bufBytes st.buf + r.bytes.length > buffer_size_ →
        (RecordStreamingMethodEvent buffer_size_ r st).flushes = st.flushes ++
            [(newFlushMethods st, newFlushThreads st, st.buf)] ∧
          (RecordStreamingMethodEvent buffer_size_ r st).buf = [r]) ∧
    (∀ (r : StreamRecord) (st : StreamingState),
      ¬ bufBytes st.buf + r.bytes.length > buffer_size_ →
        (RecordStreamingMethodEvent buffer_size_ r st).flushes = st.flushes ∧
          (RecordStreamingMethodEvent buffer_size_ r st).buf = st.buf ++ [r]) := by
  have h := recordAllStreaming_spec buffer_size_ rs initStreaming trivial rfl rfl
  obtain ⟨hc, hn1, _⟩ := h
  refine ⟨?_, hn1, ?_, ?_⟩
  · rw [hc]
    simp [initStreaming]
  · intro r st hfit
    rw [RecordStreamingMethodEvent, if_pos hfit]
    exact ⟨rfl, rfl⟩
  · intro r st hfit
    rw [RecordStreamingMethodEvent, if_neg hfit]
    exact ⟨rfl, rfl⟩

/-- Witness for C3 at a concrete forced flush: a 3-byte buffer holding one
2-byte record (thread 3, method 7) receives another 2-byte record, so the
buffer is flushed — one sink write carrying the not-yet-emitted method name 7
and thread name 3 — and the new record is written into the emptied buffer. -/
theorem streaming_flush_no_loss_witness :
    (RecordStreamingMethodEvent 3 { threadKey := 4, methodKey := 5, bytes := [9, 9] }
        { emittedMethods := [], emittedThreads := [], flushes := [],
          buf := [{ threadKey := 3, methodKey := 7, bytes := [1, 2] }] }).flushes =
      [([7], [3], [{ threadKey := 3, methodKey := 7, bytes := [1, 2] }])] ∧
    (RecordStreamingMethodEvent 3 { threadKey := 4, methodKey := 5, bytes := [9, 9] }
        { emittedMethods := [], emittedThreads := [], flushes := [],
          buf := [{ threadKey := 3, methodKey := 7, bytes := [1, 2] }] }).buf =
      [{ threadKey := 4, methodKey := 5, bytes := [9, 9] }] := by
  have h := (streaming_flush_no_loss 3 []).2.2.1
    { threadKey := 4, methodKey := 5, bytes := [9, 9] }
    { emittedMethods := [], emittedThreads := [], flushes := [],
      buf := [{ threadKey := 3, methodKey := 7, bytes := [1, 2] }] }
    (by decide)
  refine ⟨?_, h.2⟩
  rw [h.1]
  decide

/-! ## Identifier interning

`trace.h` declares `art_method_id_map_ : std::unordered_map<ArtMethod*,
uint32_t>` with `current_method_index_ = 0`, and `thread_id_map_ :
std::unordered_map<pid_t, uint16_t>` with `current_thread_index_`, mutated by
`EncodeTraceMethod` / `GetThreadEncoding` under `tracing_lock_`.  Keys
(`ArtMethod*` / `pid_t`) are modelled as `Nat`; a map is its insertion-ordered
entry list plus the next free index. -/

/-- An interning map: insertion-ordered `(key, id)` entries plus the next
index to hand out (`current_method_index_` / `current_thread_index_`). -/
structure InternMap where
  entries : List (Nat × Nat)
  nextIndex : Nat
  deriving DecidableEq, Repr

/-- Modelled from the spec: the bodies of `Trace::EncodeTraceMethod` and
`Trace::GetThreadEncoding` are not in the source tree; both are the
lookup-or-insert of spec §4.2 — return the existing id if the key was seen
before, otherwise assign the next sequential id. -/
def intern (key : Nat) (st : InternMap) : Nat × InternMap :=
  match st.entries.lookup key with
  | some idx => (idx, st)
  | none =>
      (st.nextIndex,
        { entries := st.entries ++ [(key, st.nextIndex)], nextIndex := st.nextIndex + 1 })

/-- Initial method map: `current_method_index_ = 0` (`trace.h`). -/
def methodMapInit : InternMap := { entries := [], nextIndex := 0 }

/-- Modelled from the spec: `current_thread_index_` is initialised in the
missing translation unit; the spec (§8) fixes the first id as 0 or 1, and
thread ids start at 1. -/
def threadMapInit : InternMap := { entries := [], nextIndex := 1 }

/-- Intern a whole sequence of observed keys. -/
def internAll (st0 : InternMap) (keys : List Nat) : InternMap :=
  keys.foldl (fun st k => (intern k st).2) st0

theorem lookup_append_self (l : List (Nat × Nat)) (k v : Nat)
    (h : l.lookup k = none) : (l ++ [(k, v)]).lookup k = some v := by
  induction l with
  | nil => simp [List.lookup]
  | cons p l ih =>
      by_cases hk : k = p.1
      · exfalso
        have : (k == p.1) = true := beq_iff_eq.mpr hk
        simp [List.lookup, this] at h
      · have hb : (k == p.1) = false := beq_eq_false_iff_ne.mpr hk
        simp only [List.cons_append, List.lookup, hb] at h ⊢
        exact ih h

/-- Well-formedness of a session's interning map that started at index `i0`:
the assigned ids are exactly `i0, i0+1, …` in insertion order, and the next
free index sits right past them. -/
def InternWf (i0 : Nat) (st : InternMap) : Prop :=
  st.entries.map Prod.snd = List.range' i0 st.entries.length ∧
  st.nextIndex = i0 + st.entries.length

theorem intern_wf (i0 k : Nat) (st : InternMap) (h : InternWf i0 st) :
    InternWf i0 (intern k st).2 := by
  obtain ⟨h1, h2⟩ := h
  unfold intern
  cases hl : st.entries.lookup k with
  | some idx => exact ⟨h1, h2⟩
  | none =>
      refine ⟨?_, ?_⟩
      · simp only [List.map_append, List.length_append, List.map_cons, List.map_nil,
          List.length_cons, List.length_nil]
        rw [h1, h2]
        have hr : List.range' i0 (st.entries.length + 1) =
            List.range' i0 st.entries.length ++ [i0 + st.entries.length] := by
          simpa using @List.range'_concat 1 i0 st.entries.length
        exact hr.symm
      · simp [h2]
        omega

theorem internAll_wf_of (i0 : Nat) (keys : List Nat) (st : InternMap)
    (h : InternWf i0 st) : InternWf i0 (internAll st keys) := by
  induction keys generalizing st with
  | nil => exact h
  | cons k ks ih => exact ih (intern k st).2 (intern_wf i0 k st h)

theorem internAll_wf (i0 : Nat) (keys : List Nat) :
    InternWf i0 (internAll { entries := [], nextIndex := i0 } keys) := by
  refine internAll_wf_of i0 keys _ ?_
  constructor <;> simp [List.range']

theorem intern_idempotent (k : Nat) (st : InternMap) :
    (intern k (intern k st).2).1 = (intern k st).1 ∧
    (intern k (intern k st).2).2 = (intern k st).2 := by
  cases hl : st.entries.lookup k with
  | some idx => simp [intern, hl]
  | none => simp [intern, hl, lookup_append_self st.entries k st.nextIndex hl]

/-- C4: identifier interning (`EncodeTraceMethod` for method handles,
`GetThreadEncoding` for OS thread ids) is an idempotent lookup-or-insert:
within any session, encoding the same key twice yields the same id both
times (and does not change the map), and the id space is dense — the first
id is 0 (methods) or 1 (threads) and every subsequently first-seen key
receives the previous maximum id plus one, so the assigned ids read
`i0, i0+1, i0+2, …` in insertion order. -/
theorem interning_idempotent_dense (keys : List Nat) (k : Nat) :
    ((intern k (intern k (internAll methodMapInit keys)).2).1
        = (intern k (internAll methodMapInit keys)).1 ∧
      (intern k (intern k (internAll methodMapInit keys)).2).2
        = (intern k (internAll methodMapInit keys)).2) ∧
    ((intern k (intern k (internAll threadMapInit keys)).2).1
        = (intern k (internAll threadMapInit keys)).1 ∧
      (intern k (intern k (internAll threadMapInit keys)).2).2
        = (intern k (internAll threadMapInit keys)).2) ∧
    ((internAll methodMapInit keys).entries.map Prod.snd
        = List.range' 0 (internAll methodMapInit keys).entries.length) ∧
    ((internAll threadMapInit keys).entries.map Prod.snd
        = List.range' 1 (internAll threadMapInit keys).entries.length) ∧
    ((internAll methodMapInit keys).entries.lookup k = none →
      (intern k (internAll methodMapInit keys)).1
        = 0 + (internAll methodMapInit keys).entries.length) ∧
    ((internAll threadMapInit keys).entries.lookup k = none →
      (intern k (internAll threadMapInit keys)).1
        = 1 + (internAll threadMapInit keys).entries.length) ∧
    (intern k methodMapInit).1 = 0 ∧
    (intern k threadMapInit).1 = 1 := by
  have hwm := internAll_wf 0 keys
  have hwt := internAll_wf 1 keys
  refine ⟨intern_idempotent k _, intern_idempotent k _, hwm.1, hwt.1, ?_, ?_, rfl, rfl⟩
  · intro hl
    rw [intern, hl]
    exact hwm.2
  · intro hl
    rw [intern, hl]
    exact hwt.2

/-- Witness for C4: after interning keys 10, 20, 10 the method map holds the
dense ids 0, 1; re-interning 10 again yields 0, and a fresh key 30 gets the
previous maximum plus one (2 for methods, 3 for the 1-based thread map). -/
theorem interning_idempotent_dense_witness :
    (intern 30 (internAll methodMapInit [10, 20, 10])).1 = 2 ∧
    (intern 10 (internAll methodMapInit [10, 20, 10])).1 = 0 ∧
    (intern 30 (internAll threadMapInit [10, 20, 10])).1 = 3 ∧
    (internAll methodMapInit [10, 20, 10]).entries.map Prod.snd = [0, 1] := by
  have h := interning_idempotent_dense [10, 20, 10] 30
  refine ⟨?_, by decide, ?_, ?_⟩
  · have h5 := h.2.2.2.2.1 (by decide)
    rw [h5]
    decide
  · have h6 := h.2.2.2.2.2.1 (by decide)
    rw [h6]
    decide
  · have h3 := h.2.2.1
    rw [h3]
    decide

/-! ## Decoding a buffered-mode artifact (`Trace::DumpBuf`)

`trace.h` declares `DumpBuf(uint8_t* buf, size_t buf_size, TraceClockSource
clock_source)`, which walks the buffer record by record.  Its body is not in
the source tree; the walk is modelled from the record format comment: the
buffer is a dense sequence of fixed-width records. -/

theorem GetRecordSize_pos (clock : TraceClockSource) (version : Nat) :
    0 < GetRecordSize clock version := by
  unfold GetRecordSize threadIdWidth
  by_cases h1 : version = 1 <;> cases h2 : hasWallClockField clock version <;> simp [h1]

/-- Fuel-indexed record walk: split off one fixed-width record per step. -/
def DumpBufAux (clock : TraceClockSource) (version : Nat) :
    Nat → List Nat → List DecodedRecord
  | 0, _ => []
  | _ + 1, [] => []
  | fuel + 1, b :: bs =>
      DecodeEventEntry clock version ((b :: bs).take (GetRecordSize clock version)) ::
        DumpBufAux clock version fuel ((b :: bs).drop (GetRecordSize clock version))

/-- Modelled from the spec: the body of `Trace::DumpBuf` is not in the source
tree; the buffer is decoded as the dense sequence of fixed-width records the
format comment describes. -/
def DumpBuf (clock : TraceClockSource) (version : Nat) (bytes : List Nat) :
    List DecodedRecord :=
  DumpBufAux clock version bytes.length bytes

/-- One observed method event, with already-interned ids. -/
structure TraceEvent where
  thread_id : Nat
  method_index : Nat
  action : TraceAction
  thread_clock_diff : Nat
  wall_clock_diff : Nat
  deriving DecidableEq, Repr

/-- Encode one observed event. -/
def encodeEvent (clock : TraceClockSource) (version : Nat) (e : TraceEvent) : List Nat :=
  EncodeEventEntry clock version e.thread_id e.method_index e.action
    e.thread_clock_diff e.wall_clock_diff

/-- The decoded form an in-range event must come back as. -/
def expectedDecoded (clock : TraceClockSource) (version : Nat) (e : TraceEvent) :
    DecodedRecord :=
  { thread_id := e.thread_id
    method_index := e.method_index
    action := e.action.encoding
    thread_clock_diff := e.thread_clock_diff
    wall_clock_diff :=
      if hasWallClockField clock version then some e.wall_clock_diff else none }

/-- Field ranges under which a record survives encoding unchanged. -/
def eventInRange (clock : TraceClockSource) (version : Nat) (e : TraceEvent) : Prop :=
  e.thread_id < 256 ^ threadIdWidth version ∧ e.method_index < 2 ^ 30 ∧
    e.thread_clock_diff < 2 ^ 32 ∧ e.wall_clock_diff < 2 ^ 32

theorem DumpBufAux_step (clock : TraceClockSource) (version : Nat)
    (fuel : Nat) (bytes : List Nat) (h : bytes ≠ []) :
    DumpBufAux clock version (fuel + 1) bytes =
      DecodeEventEntry clock version (bytes.take (GetRecordSize clock version)) ::
        DumpBufAux clock version fuel (bytes.drop (GetRecordSize clock version)) := by
  cases bytes with
  | nil => exact absurd rfl h
  | cons b bs => rfl

theorem DumpBufAux_flatten (clock : TraceClockSource) (version : Nat)
    (evs : List TraceEvent) (fuel : Nat)
    (hrange : ∀ e ∈ evs, eventInRange clock version e)
    (hfuel : ((evs.map (encodeEvent clock version)).flatten).length ≤ fuel) :
    DumpBufAux clock version fuel ((evs.map (encodeEvent clock version)).flatten)
      = evs.map (expectedDecoded clock version) := by
  induction evs generalizing fuel with
  | nil =>
      cases fuel with
      | zero => rfl
      | succ f => rfl
  | cons e evs ih =>
      have hr := hrange e (by simp)
      have hrest : ∀ x ∈ evs, eventInRange clock version x :=
        fun x hx => hrange x (by simp [hx])
      have hel : (encodeEvent clock version e).length = GetRecordSize clock version :=
        EncodeEventEntry_length clock version _ _ _ _ _
      have hwpos : 0 < GetRecordSize clock version := GetRecordSize_pos clock version
      have hbytes : ((e :: evs).map (encodeEvent clock version)).flatten
          = encodeEvent clock version e ++ (evs.map (encodeEvent clock version)).flatten := by
        simp
      have hlen : 0 < (((e :: evs).map (encodeEvent clock version)).flatten).length := by
        rw [hbytes, List.length_append, hel]
        omega
      obtain ⟨f, hf⟩ : ∃ f, fuel = f + 1 := by
        cases fuel with
        | zero =>
            exfalso
            rw [hbytes, List.length_append, hel] at hfuel
            omega
        | succ f => exact ⟨f, rfl⟩
      subst hf
      have hne : ((e :: evs).map (encodeEvent clock version)).flatten ≠ [] := by
        intro hnil
        rw [hnil] at hlen
        simp at hlen
      rw [DumpBufAux_step clock version f _ hne, hbytes,
        take_append_len _ _ _ hel, drop_append_len _ _ _ hel]
      have hdec : DecodeEventEntry clock version (encodeEvent clock version e)
          = expectedDecoded clock version e := by
        obtain ⟨h1, h2, h3, h4⟩ := hr
        unfold expectedDecoded
        exact DecodeEventEntry_EncodeEventEntry clock version _ _ _ _ _ h1 h2 h3 h4
      rw [hdec, List.map_cons]
      have hfuel2 : ((evs.map (encodeEvent clock version)).flatten).length ≤ f := by
        rw [hbytes, List.length_append, hel] at hfuel
        omega
      rw [ih f hrest hfuel2]

theorem filter_map_thread (evs : List TraceEvent) (g : TraceEvent → DecodedRecord)
    (hg : ∀ e, (g e).thread_id = e.thread_id) (t : Nat) :
    (evs.map g).filter (fun r => r.thread_id == t)
      = (evs.filter (fun e => e.thread_id == t)).map g := by
  induction evs with
  | nil => rfl
  | cons e evs ih =>
      simp only [List.map_cons, List.filter_cons, hg]
      cases h : (e.thread_id == t) <;> simp [h, ih]

/-- C5: for every sequence of interleaved method-enter/exit events across any
threads in buffered mode (no overflow), decoding the produced artifact and
projecting it to one thread yields exactly the ordered subsequence of events
that thread emitted; nothing beyond the recorded global order (and the clock
deltas each record carries) is claimed across threads. -/
theorem buffered_per_thread_order (clock : TraceClockSource) (version : Nat)
    (buffer_size_ : Nat) (evs : List TraceEvent)
    (hrange : ∀ e ∈ evs, eventInRange clock version e)
    (hfit : evs.length * GetRecordSize clock version ≤ buffer_size_) (t : Nat) :
    List.filter (fun r => r.thread_id == t)
        (DumpBuf clock version
          (recordAll buffer_size_ (evs.map (encodeEvent clock version)) initBuffered).written)
      = (evs.filter (fun e => e.thread_id == t)).map (expectedDecoded clock version) := by
  have hwpos : 0 < GetRecordSize clock version := GetRecordSize_pos clock version
  have hlenr : ∀ r ∈ evs.map (encodeEvent clock version),
      r.length = GetRecordSize clock version := by
    intro r hrr
    obtain ⟨e, _, he⟩ := List.mem_map.mp hrr
    rw [← he]
    exact EncodeEventEntry_length clock version _ _ _ _ _
  have hN : (evs.map (encodeEvent clock version)).length ≤
      buffer_size_ / GetRecordSize clock version := by
    rw [List.length_map]
    exact (Nat.le_div_iff_mul_le hwpos).mpr hfit
  have hrec := recordAll_fixed_width buffer_size_ (GetRecordSize clock version) hwpos
    (evs.map (encodeEvent clock version)) hlenr 0 false []
  have hinit : initBuffered =
      ({ cur_offset_ := 0 * GetRecordSize clock version, overflow_ := false, written := [] } :
        BufferedState) := by
    simp [initBuffered]
  have htk : (evs.map (encodeEvent clock version)).take
      (buffer_size_ / GetRecordSize clock version - 0) = evs.map (encodeEvent clock version) :=
    List.take_of_length_le (by omega)
  have hwr : (recordAll buffer_size_ (evs.map (encodeEvent clock version)) initBuffered).written
      = ((evs.map (encodeEvent clock version)).flatten) := by
    rw [hinit, hrec, htk]
    simp
  rw [hwr]
  unfold DumpBuf
  rw [DumpBufAux_flatten clock version evs _ hrange (Nat.le_refl _)]
  exact filter_map_thread evs (expectedDecoded clock version) (fun e => rfl) t

/-- Witness for C5: three interleaved events from threads 1 and 2; filtering
the decoded buffered artifact to thread 1 yields exactly thread 1's two
events, in order. -/
theorem buffered_per_thread_order_witness :
    List.filter (fun r => r.thread_id == 1)
        (DumpBuf TraceClockSource.kThreadCpu 2
          (recordAll 100
            (([{ thread_id := 1, method_index := 3, action := TraceAction.kTraceMethodEnter,
                 thread_clock_diff := 10, wall_clock_diff := 0 },
               { thread_id := 2, method_index := 3, action := TraceAction.kTraceMethodEnter,
                 thread_clock_diff := 11, wall_clock_diff := 0 },
               { thread_id := 1, method_index := 3, action := TraceAction.kTraceMethodExit,
                 thread_clock_diff := 12, wall_clock_diff := 0 }] : List TraceEvent).map
              (encodeEvent TraceClockSource.kThreadCpu 2)) initBuffered).written)
      = [{ thread_id := 1, method_index := 3, action := 0, thread_clock_diff := 10,
           wall_clock_diff := none },
         { thread_id := 1, method_index := 3, action := 1, thread_clock_diff := 12,
           wall_clock_diff := none }] := by
  have h := buffered_per_thread_order TraceClockSource.kThreadCpu 2 100
    ([{ thread_id := 1, method_index := 3, action := TraceAction.kTraceMethodEnter,
        thread_clock_diff := 10, wall_clock_diff := 0 },
      { thread_id := 2, method_index := 3, action := TraceAction.kTraceMethodEnter,
        thread_clock_diff := 11, wall_clock_diff := 0 },
      { thread_id := 1, method_index := 3, action := TraceAction.kTraceMethodExit,
        thread_clock_diff := 12, wall_clock_diff := 0 }] : List TraceEvent)
    (by intro e he; fin_cases he <;> exact ⟨by decide, by decide, by decide, by decide⟩)
    (by decide) 1
  rw [h]
  decide

/-! ## Tracer controller (`Trace::Start` / `Trace::Stop` / `Trace::Abort`)

`trace.h` declares the lifecycle entry points, the singleton
`static Trace* volatile the_trace_` ("null when no method tracing is
active"), `enum TracingMode`, and documents `Stop` ("finish the trace and
write it to file") and `Abort` ("just stop tracing and *not* write/send the
collected data").  The bodies are not in the source tree; the state machine
is modelled from spec §4.1 and §7(a). -/

/-- `enum TraceOutputMode` (`trace.h`). -/
inductive TraceOutputMode where
  | kFile
  | kDDMS
  | kStreaming
  deriving DecidableEq, Repr

/-- `enum TraceMode` (`trace.h`). -/
inductive TraceMode where
  | kMethodTracing
  | kSampling
  deriving DecidableEq, Repr

/-- `enum TracingMode` (`trace.h`). -/
inductive TracingMode where
  | kTracingInactive
  | kMethodTracingActive
  | kSampleProfilingActive
  deriving DecidableEq, Repr

/-- A `Start` request: whether the requested sink (file path, descriptor or
DDMS channel) can be obtained, plus the session configuration of `trace.h`'s
`Start` overloads. -/
structure TraceConfig where
  sinkObtainable : Bool
  buffer_size : Nat
  flags : Nat
  output_mode : TraceOutputMode
  trace_mode : TraceMode
  interval_us : Nat
  deriving DecidableEq, Repr

/-- An installed tracing session (`the_trace_` non-null): its configuration
and the trace data collected so far but not yet persisted. -/
structure TraceSession where
  config : TraceConfig
  data : List Nat
  deriving DecidableEq, Repr

/-- Process-wide controller state: the singleton `the_trace_` and the bytes
already persisted to the sink. -/
structure ControllerState where
  the_trace_ : Option TraceSession
  sink : List Nat
  deriving DecidableEq, Repr

/-- `kTraceMagicValue` — the header magic "SLOW" stored little-endian
(header format comment in `trace.h`). -/
def kTraceMagicValue : Nat := 0x574f4c53

/-- Modelled from the spec: header layout per the header format comment in
`trace.h` — u4 magic, u2 version, u2 data offset, u8 start time, u2 record
size (version ≥ 2), padded to 32 bytes. -/
def traceHeader (version recordSize startTime : Nat) : List Nat :=
  toLE 4 kTraceMagicValue ++ toLE 2 version ++ toLE 2 32 ++ toLE 8 startTime ++
    toLE 2 recordSize ++ List.replicate 14 0

/-- Modelled from the spec: the bodies of the `Trace::Start` overloads are not
in the source tree.  Preconditions per §4.1/§7(a): no session already active
(`the_trace_` null), sink obtainable, buffer capacity strictly positive; any
violation is reported synchronously and the state is left untouched.  On
success the session is installed and the format header is written. -/
def Start (cfg : TraceConfig) (version recordSize startTime : Nat)
    (st : ControllerState) : Except String Unit × ControllerState :=
  if st.the_trace_.isSome then
    (Except.error "Trace already in progress, ignoring this request", st)
  else if cfg.sinkObtainable = false then
    (Except.error "Unable to open trace file", st)
  else if cfg.buffer_size = 0 then
    (Except.error "Invalid buffer size", st)
  else
    (Except.ok (),
      { the_trace_ := some { config := cfg, data := [] }
        sink := st.sink ++ traceHeader version recordSize startTime })

/-- Modelled from the spec: `Trace::GetMethodTracingMode` body is not in the
source tree; `the_trace_` null means inactive, otherwise the mode follows the
session's trace mode (`enum TracingMode` comments in `trace.h`). -/
def GetMethodTracingMode (st : ControllerState) : TracingMode :=
  match st.the_trace_ with
  | none => TracingMode.kTracingInactive
  | some s =>
      match s.config.trace_mode with
      | TraceMode.kMethodTracing => TracingMode.kMethodTracingActive
      | TraceMode.kSampling => TracingMode.kSampleProfilingActive

/-- Modelled from the spec: `Trace::StopTracing(finish_tracing, flush_file)`
body is not in the source tree; teardown uninstalls the singleton and
persists the collected data only when `finish_tracing` is set (comments on
`Stop`/`Abort` in `trace.h`). -/
def StopTracing (finish_tracing flush_file : Bool) (st : ControllerState) :
    ControllerState :=
  match st.the_trace_ with
  | none => st
  | some s =>
      { the_trace_ := none
        sink := if finish_tracing then st.sink ++ s.data else st.sink }

/-- `Trace::Stop`: finish the trace and write it (`trace.h`). -/
def Stop (st : ControllerState) : ControllerState := StopTracing true true st

/-- `Trace::Abort`: "just stop tracing and *not* write/send the collected
data" (`trace.h`). -/
def Abort (st : ControllerState) : ControllerState := StopTracing false false st

/-- C6: if `Start` is called with an invalid configuration — another session
already active, an unobtainable sink, or a non-positive buffer capacity — the
error is reported synchronously from `Start` and the controller never leaves
the Inactive state: no singleton session is installed, no header is written,
and subsequent queries still report tracing inactive. -/
theorem start_invalid_config_stays_inactive (cfg : TraceConfig)
    (version recordSize startTime : Nat) (st : ControllerState)
    (hbad : st.the_trace_.isSome = true ∨ cfg.sinkObtainable = false ∨
      cfg.buffer_size = 0) :
    (∃ e, (Start cfg version recordSize startTime st).1 = Except.error e) ∧
    (Start cfg version recordSize startTime st).2 = st ∧
    (Start cfg version recordSize startTime st).2.sink = st.sink ∧
    (st.the_trace_ = none →
      GetMethodTracingMode (Start cfg version recordSize startTime st).2
        = TracingMode.kTracingInactive) := by
  by_cases h1 : st.the_trace_.isSome
  · refine ⟨⟨"Trace already in progress, ignoring this request", ?_⟩, ?_, ?_, ?_⟩ <;>
      simp [Start, h1, GetMethodTracingMode]
    intro hn
    rw [hn]
  · have hrest : cfg.sinkObtainable = false ∨ cfg.buffer_size = 0 := by
      rcases hbad with h | h | h
      · exact absurd h h1
      · exact Or.inl h
      · exact Or.inr h
    have hnone : st.the_trace_ = none := Option.not_isSome_iff_eq_none.mp h1
    by_cases h2 : cfg.sinkObtainable = false
    · refine ⟨⟨"Unable to open trace file", ?_⟩, ?_, ?_, ?_⟩ <;>
        simp [Start, h1, h2, GetMethodTracingMode, hnone]
    · have h3 : cfg.buffer_size = 0 := by tauto
      refine ⟨⟨"Invalid buffer size", ?_⟩, ?_, ?_, ?_⟩ <;>
        simp [Start, h1, h2, h3, GetMethodTracingMode, hnone]

/-- Witness for C6: a `Start` request with buffer capacity 0 against the
inactive controller fails synchronously and leaves everything untouched. -/
theorem start_invalid_config_stays_inactive_witness :
    (Start { sinkObtainable := true, buffer_size := 0, flags := 0,
             output_mode := TraceOutputMode.kFile,
             trace_mode := TraceMode.kMethodTracing, interval_us := 0 }
        2 10 0 { the_trace_ := none, sink := [] }).1
      = Except.error "Invalid buffer size" ∧
    (Start { sinkObtainable := true, buffer_size := 0, flags := 0,
             output_mode := TraceOutputMode.kFile,
             trace_mode := TraceMode.kMethodTracing, interval_us := 0 }
        2 10 0 { the_trace_ := none, sink := [] }).2
      = { the_trace_ := none, sink := [] } := by
  have h := start_invalid_config_stays_inactive
    { sinkObtainable := true, buffer_size := 0, flags := 0,
      output_mode := TraceOutputMode.kFile,
      trace_mode := TraceMode.kMethodTracing, interval_us := 0 }
    2 10 0 { the_trace_ := none, sink := [] } (by right; right; rfl)
  exact ⟨by rfl, h.2.1⟩

/-- C7: after `Abort`, none of the collected trace data is persisted to the
sink — the sink is exactly what it was before the session — even if events
had already been buffered; the teardown otherwise matches `Stop` (singleton
uninstalled) and leaves the controller in the Inactive state. -/
theorem abort_discards_data (st : ControllerState) :
    (Abort st).sink = st.sink ∧
    GetMethodTracingMode (Abort st) = GetMethodTracingMode (Stop st) ∧
    (st.the_trace_.isSome → (Abort st).the_trace_ = none ∧
      GetMethodTracingMode (Abort st) = TracingMode.kTracingInactive) := by
  cases h : st.the_trace_ with
  | none => simp [Abort, Stop, StopTracing, h, GetMethodTracingMode]
  | some s => simp [Abort, Stop, StopTracing, h, GetMethodTracingMode]

/-- A concrete method-tracing configuration used by the `Abort` witness. -/
def sampleConfig : TraceConfig :=
  { sinkObtainable := true
    buffer_size := 8
    flags := 0
    output_mode := TraceOutputMode.kFile
    trace_mode := TraceMode.kMethodTracing
    interval_us := 0 }

/-- A concrete controller state whose session has buffered three data bytes,
used by the `Abort` witness. -/
def sampleAbortState : ControllerState :=
  { the_trace_ := some { config := sampleConfig, data := [1, 2, 3] }
    sink := [9] }

/-- Witness for C7: aborting a session that has buffered three data bytes
persists nothing and reports tracing inactive. -/
theorem abort_discards_data_witness :
    (Abort sampleAbortState).sink = [9] ∧
    (Abort sampleAbortState).the_trace_ = none := by
  have h := abort_discards_data sampleAbortState
  exact ⟨h.1, (h.2.2 (by decide)).1⟩

/-! ## Identifier-space exhaustion

`trace.h` fixes the id widths by declaration: `thread_id_map_` maps to
`uint16_t` (via `GetThreadEncoding`, 16-bit) and `art_method_id_map_` to
`uint32_t` (via `EncodeTraceMethod`, 32-bit).  The bodies are not in the
source tree; exhaustion handling is modelled from spec §4.2/§7(c): running
out of ids is an unrecoverable session error, never a wrapped or reused id. -/

/-- Modelled from the spec: lookup-or-insert that aborts the session instead
of assigning an id outside the declared space (spec §4.2: "Exhausting the
16-bit thread-id space or 32-bit method-id space is treated as an
unrecoverable session error"). -/
def internChecked (maxIds key : Nat) (st : InternMap) :
    Except String (Nat × InternMap) :=
  match st.entries.lookup key with
  | some idx => Except.ok (idx, st)
  | none =>
      if st.nextIndex < maxIds then Except.ok (intern key st)
      else Except.error "identifier space exhausted: trace must be aborted"

/-- `Trace::EncodeTraceMethod`, with the 32-bit method-id space of
`art_method_id_map_` (`trace.h`). -/
def EncodeTraceMethod (method : Nat) (st : InternMap) :
    Except String (Nat × InternMap) :=
  internChecked (2 ^ 32) method st

/-- `Trace::GetThreadEncoding`, with the 16-bit thread-id space of
`thread_id_map_` (`trace.h`). -/
def GetThreadEncoding (thread_id : Nat) (st : InternMap) :
    Except String (Nat × InternMap) :=
  internChecked (2 ^ 16) thread_id st

theorem lookup_mem_snd (l : List (Nat × Nat)) (k v : Nat)
    (h : l.lookup k = some v) : v ∈ l.map Prod.snd := by
  induction l with
  | nil => simp [List.lookup] at h
  | cons p l ih =>
      cases hb : (k == p.1) with
      | true =>
          simp only [List.lookup, hb] at h
          injection h with h
          simp [← h]
      | false =>
          simp only [List.lookup, hb] at h
          simp [ih h]

theorem internChecked_spec (maxIds k : Nat) (st : InternMap) (i0 : Nat) :
    (st.entries.lookup k = none → maxIds ≤ st.nextIndex →
      internChecked maxIds k st
        = Except.error "identifier space exhausted: trace must be aborted") ∧
    (∀ id st2, InternWf i0 st → st.nextIndex ≤ maxIds →
      internChecked maxIds k st = Except.ok (id, st2) →
        id < maxIds ∧ (st.entries.lookup k = none → ¬ id ∈ st.entries.map Prod.snd)) := by
  constructor
  · intro hl hge
    rw [internChecked, hl]
    simp only [if_neg (by omega : ¬ st.nextIndex < maxIds)]
  · intro id st2 hwf hle hok
    obtain ⟨hw1, hw2⟩ := hwf
    cases hl : st.entries.lookup k with
    | some idx =>
        rw [internChecked, hl] at hok
        injection hok with hok
        have hid : idx = id := congrArg Prod.fst hok
        subst hid
        have hmem : idx ∈ st.entries.map Prod.snd := lookup_mem_snd _ _ _ hl
        rw [hw1] at hmem
        have hb := List.mem_range'_1.mp hmem
        exact ⟨by omega, fun hn => False.elim (Option.noConfusion hn)⟩
    | none =>
        rw [internChecked, hl] at hok
        by_cases hlt : st.nextIndex < maxIds
        · rw [if_pos hlt] at hok
          injection hok with hok
          have hid : (intern k st).1 = id := congrArg Prod.fst hok
          have hfst : (intern k st).1 = st.nextIndex := by
            rw [intern, hl]
          rw [hfst] at hid
          subst hid
          refine ⟨hlt, fun _ hmem => ?_⟩
          rw [hw1] at hmem
          have hb := List.mem_range'_1.mp hmem
          omega
        · rw [if_neg hlt] at hok
          exact Except.noConfusion hok

/-- C8: if interning a newly observed thread would exhaust the 16-bit
thread-id space, or interning a newly observed method would exhaust the
32-bit method-id space, the session treats this as an unrecoverable error and
aborts the trace; a successful interning never hands out an id outside the
declared space and never reuses an already-assigned id. -/
theorem id_space_exhaustion_aborts (k : Nat) (st : InternMap) (i0 : Nat) :
    (st.entries.lookup k = none → 2 ^ 16 ≤ st.nextIndex →
      GetThreadEncoding k st
        = Except.error "identifier space exhausted: trace must be aborted") ∧
    (st.entries.lookup k = none → 2 ^ 32 ≤ st.nextIndex →
      EncodeTraceMethod k st
        = Except.error "identifier space exhausted: trace must be aborted") ∧
    (∀ id st2, InternWf i0 st → st.nextIndex ≤ 2 ^ 16 →
      GetThreadEncoding k st = Except.ok (id, st2) →
        id < 2 ^ 16 ∧ (st.entries.lookup k = none → ¬ id ∈ st.entries.map Prod.snd)) ∧
    (∀ id st2, InternWf i0 st → st.nextIndex ≤ 2 ^ 32 →
      EncodeTraceMethod k st = Except.ok (id, st2) →
        id < 2 ^ 32 ∧ (st.entries.lookup k = none → ¬ id ∈ st.entries.map Prod.snd)) := by
  refine ⟨(internChecked_spec (2 ^ 16) k st i0).1, (internChecked_spec (2 ^ 32) k st i0).1,
    (internChecked_spec (2 ^ 16) k st i0).2, (internChecked_spec (2 ^ 32) k st i0).2⟩

/-- Witness for C8: a thread map whose next index already sits at `2^16`
rejects a fresh thread id with the unrecoverable-error result, and a fresh
map hands out id 0 below the bound. -/
theorem id_space_exhaustion_aborts_witness :
    GetThreadEncoding 1 { entries := [(0, 0)], nextIndex := 2 ^ 16 }
      = Except.error "identifier space exhausted: trace must be aborted" ∧
    GetThreadEncoding 5 { entries := [], nextIndex := 0 }
      = Except.ok (0, { entries := [(5, 0)], nextIndex := 1 }) ∧
    (0 : Nat) < 2 ^ 16 := by
  have h1 := (id_space_exhaustion_aborts 1 { entries := [(0, 0)], nextIndex := 2 ^ 16 } 0).1
    (by decide) (by decide)
  have h2 := ((id_space_exhaustion_aborts 5 { entries := [], nextIndex := 0 } 0).2.2.1
    0 { entries := [(5, 0)], nextIndex := 1 }
    (by constructor <;> decide) (by decide) rfl).1
  exact ⟨h1, rfl, h2⟩

/-! ## Clock deltas (`Trace::ReadClocks`)

`trace.h` declares `ReadClocks(Thread*, uint32_t* thread_clock_diff,
uint64_t* timestamp_counter)` — the per-record delta out-parameter is a
32-bit value — and the record format comment notes "32 bits of microseconds
is 70 minutes". -/

/-- Modelled from the spec: the body of `Trace::ReadClocks` is not in the
source tree; the delta it produces is the elapsed microseconds since
`start_time_`, reduced modulo `2^32` by the `uint32_t` out-parameter declared
in `trace.h`. -/
def ReadClocks (start_time_ nowMicros : Nat) : Nat :=
  (nowMicros - start_time_) % 2 ^ 32

/-- C9: the per-record time fields store the elapsed time since session start
reduced modulo `2^32` microseconds: the thread-clock delta (and, in dual-clock
mode, the wall-clock delta) of an event occurring any amount of time — in
particular more than `2^32` microseconds (about 70 minutes) — after session
start wraps around modulo `2^32` rather than saturating or failing, and the
wrapped value is what the encoded record carries. -/
theorem clock_delta_wraps_mod_2_32 (clock : TraceClockSource) (version : Nat)
    (tid mid : Nat) (a : TraceAction) (start_time_ nowMicros : Nat)
    (htid : tid < 256 ^ threadIdWidth version) (hmid : mid < 2 ^ 30) :
    ReadClocks start_time_ nowMicros < 2 ^ 32 ∧
    ReadClocks start_time_ nowMicros = (nowMicros - start_time_) % 2 ^ 32 ∧
    DecodedRecord.thread_clock_diff
        (DecodeEventEntry clock version (EncodeEventEntry clock version tid mid a
          (ReadClocks start_time_ nowMicros) (ReadClocks start_time_ nowMicros)))
      = (nowMicros - start_time_) % 2 ^ 32 ∧
    (hasWallClockField clock version = true →
      DecodedRecord.wall_clock_diff
          (DecodeEventEntry clock version (EncodeEventEntry clock version tid mid a
            (ReadClocks start_time_ nowMicros) (ReadClocks start_time_ nowMicros)))
        = some ((nowMicros - start_time_) % 2 ^ 32)) := by
  have hlt : ReadClocks start_time_ nowMicros < 2 ^ 32 :=
    Nat.mod_lt _ (by norm_num)
  have hdec := DecodeEventEntry_EncodeEventEntry clock version tid mid a
    (ReadClocks start_time_ nowMicros) (ReadClocks start_time_ nowMicros)
    htid hmid hlt hlt
  refine ⟨hlt, rfl, ?_, ?_⟩
  · rw [hdec]
    rfl
  · intro hwc
    rw [hdec]
    simp [hwc, ReadClocks]

/-- Witness for C9: an event `2^32 + 5` microseconds after session start is
recorded (dual-clock v3) with both deltas wrapped to 5, not saturated. -/
theorem clock_delta_wraps_mod_2_32_witness :
    ReadClocks 0 (2 ^ 32 + 5) = 5 ∧
    DecodedRecord.thread_clock_diff
        (DecodeEventEntry TraceClockSource.kDual 3 (EncodeEventEntry TraceClockSource.kDual 3
          9 2 TraceAction.kTraceMethodEnter (ReadClocks 0 (2 ^ 32 + 5))
          (ReadClocks 0 (2 ^ 32 + 5)))) = 5 ∧
    DecodedRecord.wall_clock_diff
        (DecodeEventEntry TraceClockSource.kDual 3 (EncodeEventEntry TraceClockSource.kDual 3
          9 2 TraceAction.kTraceMethodEnter (ReadClocks 0 (2 ^ 32 + 5))
          (ReadClocks 0 (2 ^ 32 + 5)))) = some 5 := by
  have h := clock_delta_wraps_mod_2_32 TraceClockSource.kDual 3 9 2
    TraceAction.kTraceMethodEnter 0 (2 ^ 32 + 5) (by decide) (by decide)
  refine ⟨by decide, ?_, ?_⟩
  · rw [h.2.2.1]
    decide
  · rw [h.2.2.2 rfl]
    decide

/-! ## `Trace::EnsureSpace` and `Trace::WriteToBuf`

`trace.h` documents `EnsureSpace`: "Ensures there is sufficient space in the
buffer to record the requested_size. If there is not enough sufficient space
the current contents of the buffer are written to the file and current_index
is reset to 0. This doesn't check if buffer_size is big enough to hold the
requested size", and `WriteToBuf`: "Writes header followed by data to the
buffer at the current_index. This also updates the current_index to point to
the next entry." -/

/-- A per-thread streaming buffer viewed byte-wise: the chunks already written
out to the trace file, and the current buffer contents (whose length is
`current_index`). -/
structure StreamBuf where
  flushedToFile : List (List Nat)
  contents : List Nat
  deriving DecidableEq, Repr

/-- Modelled from the spec: the body of `Trace::EnsureSpace` is not in the
source tree; behaviour per its doc comment in `trace.h` — flush the current
contents to the file and reset the index when the request does not fit, with
no check that `buffer_size` can hold `required_size` at all. -/
def EnsureSpace (buffer_size_ required_size : Nat) (st : StreamBuf) : StreamBuf :=
  if st.contents.length + required_size ≤ buffer_size_ then st
  else { flushedToFile := st.flushedToFile ++ [st.contents], contents := [] }

/-- Modelled from the spec: the body of `Trace::WriteToBuf` is not in the
source tree; behaviour per its doc comment in `trace.h` — ensure space for and
append the header, then ensure space for and append the data. -/
def WriteToBuf (header data : List Nat) (buffer_size_ : Nat) (st : StreamBuf) : StreamBuf :=
  let st1 := EnsureSpace buffer_size_ header.length st
  let st2 : StreamBuf := { st1 with contents := st1.contents ++ header }
  let st3 := EnsureSpace buffer_size_ data.length st2
  { st3 with contents := st3.contents ++ data }

theorem EnsureSpace_post (buffer_size_ required_size : Nat) (st : StreamBuf)
    (hreq : required_size ≤ buffer_size_) :
    (EnsureSpace buffer_size_ required_size st).contents.length + required_size
      ≤ buffer_size_ := by
  unfold EnsureSpace
  by_cases h : st.contents.length + required_size ≤ buffer_size_
  · rw [if_pos h]
    exact h
  · rw [if_neg h]
    simpa using hreq

/-- C10: `EnsureSpace` has the unchecked precondition that the required size
does not exceed the per-thread streaming buffer size: under the hypothesis
`required_size ≤ buffer_size`, after `EnsureSpace` returns at least
`required_size` bytes remain free at the current index, and under the
corresponding hypotheses on the header and data sizes the `WriteToBuf` stores
stay within the bounds of the buffer. -/
theorem ensure_space_unchecked_precondition (buffer_size_ required_size : Nat)
    (st : StreamBuf) (header data : List Nat)
    (hreq : required_size ≤ buffer_size_)
    (hh : header.length ≤ buffer_size_) (hd : data.length ≤ buffer_size_) :
    (EnsureSpace buffer_size_ required_size st).contents.length + required_size
        ≤ buffer_size_ ∧
    (WriteToBuf header data buffer_size_ st).contents.length ≤ buffer_size_ := by
  refine ⟨EnsureSpace_post buffer_size_ required_size st hreq, ?_⟩
  have h1 := EnsureSpace_post buffer_size_ header.length st hh
  have h2 := EnsureSpace_post buffer_size_ data.length
    { EnsureSpace buffer_size_ header.length st with
      contents := (EnsureSpace buffer_size_ header.length st).contents ++ header } hd
  unfold WriteToBuf
  simp only [List.length_append]
  simp only [List.length_append] at h2
  omega

/-- Witness for C10: buffer size 4, a full 3-byte buffer; `EnsureSpace` for 3
more bytes flushes and leaves the 3 bytes of room, and `WriteToBuf` of a
1-byte header plus 2-byte data stays within the 4-byte bound. -/
theorem ensure_space_unchecked_precondition_witness :
    (EnsureSpace 4 3 { flushedToFile := [], contents := [1, 2, 3] }).contents.length + 3
        ≤ 4 ∧
    List.length
        (StreamBuf.contents (WriteToBuf [7] [8, 8] 4
          { flushedToFile := [], contents := [1, 2, 3] })) ≤ 4 := by
  have h := ensure_space_unchecked_precondition 4 3
    { flushedToFile := [], contents := [1, 2, 3] } [7] [8, 8]
    (by decide) (by decide) (by decide)
  exact h
